import Mathlib

/-!
Verification of the `copywriter` license-updater tool (src/main.rs).

The development shallowly embeds the pure text-transformation core of
`update_file` (src/main.rs:146-269) over `List Char`:

* a small regular-expression abstract syntax `Re` together with a
  backtracking matcher `Re.matches` that enumerates candidate matches in
  the preference order of Rust's `regex` crate (leftmost-first semantics:
  greedy quantifiers prefer longer matches, lazy quantifiers prefer
  shorter ones, an optional group prefers to participate);
* `Re.findAux`, the leftmost match, and `Re.replaceFirst`, which models
  `Regex::replace` including `$`-interpolation of the replacement string;
* the comment-style table `getCommentStyle`, the extension filter
  `isSourceFile`, and the transformation pipeline `headerStep`,
  `footerStep`, `updateFileContent`.

Fallible operations (`unwrap` on `caps.get(1)` and on `str::parse`) are
modelled with `Option`: a `none` result of `headerStep` corresponds to a
panic of the Rust code.
-/

set_option maxRecDepth 10000

/-- Whitespace class: models the ASCII fragment of Rust's `\s`
(Unicode White_Space), which is also what `str::trim_end` and
`char::is_whitespace` use. Non-ASCII white space is not modelled. -/
def wsClass (c : Char) : Bool :=
  c = ' ' || c = '\t' || c = '\n' || c = '\x0b' || c = '\x0c' || c = '\r'

/-- Decimal-digit class: models the regex `\d` (Unicode `\p{Nd}`),
restricted to the ranges exercised in this development: ASCII digits,
Arabic-Indic digits (U+0660-U+0669), extended Arabic-Indic digits
(U+06F0-U+06F9) and Devanagari digits (U+0966-U+096F). Rust's `regex`
crate matches the full `Nd` category; the extra ranges are enough to
witness that `\d` accepts non-ASCII digits. -/
def isNd (c : Char) : Bool :=
  c.isDigit || (0x660 ≤ c.toNat && c.toNat ≤ 0x669)
    || (0x6F0 ≤ c.toNat && c.toNat ≤ 0x6F9)
    || (0x966 ≤ c.toNat && c.toNat ≤ 0x96F)

/-- Character that may appear in a `$name` capture reference of a
replacement string (Rust regex replacement syntax): word characters. -/
def nameChar (c : Char) : Bool := c.isAlphanum || c = '_'

/-- Regular-expression abstract syntax, covering exactly the constructs
used by the two patterns of `update_file`: literal runs (the
`regex::escape`d comment markers, author name and fixed template text),
single-character classes, greedy and lazy stars of a character class
(`\s*`, `.*?`), concatenation, a greedy optional group `(?:...)?`, the
single capturing group, and the end anchor `$`. -/
inductive Re where
  | lits (cs : List Char)
  | cls (p : Char → Bool)
  | starG (p : Char → Bool)
  | starL (p : Char → Bool)
  | cat (a b : Re)
  | opt (a : Re)
  | grp (a : Re)
  | eos
deriving Inhabited

/-- Merge of capture information along a concatenation: the capture found
in the left factor wins (there is at most one capturing group in the
patterns modelled here, so at most one side is `some`). -/
def capMerge : Option (List Char) → Option (List Char) → Option (List Char)
  | some x, _ => some x
  | none, y => y

/-- Candidates of a greedy star of a character class (`\s*`): the run of
matching characters is consumed as far as possible first, shorter
consumptions follow as backtracking alternatives. -/
def starGMatches (p : Char → Bool) : List Char → List (List Char × Option (List Char))
  | [] => [([], none)]
  | c :: rest =>
    if p c then starGMatches p rest ++ [(c :: rest, none)]
    else [(c :: rest, none)]

/-- Candidates of a lazy star of a character class (`.*?`): the empty
consumption comes first, longer consumptions follow as backtracking
alternatives. -/
def starLMatches (p : Char → Bool) : List Char → List (List Char × Option (List Char))
  | [] => [([], none)]
  | c :: rest => (c :: rest, none) :: (if p c then starLMatches p rest else [])

/-- All ways the regex can match a prefix of `s`, in backtracking
preference order; each candidate is the remaining suffix together with
the contents of capture group 1 (if the group participated). The head of
this list at the leftmost successful start position is exactly the match
the Rust `regex` crate reports (leftmost-first semantics). -/
def Re.matches : Re → List Char → List (List Char × Option (List Char))
  | .lits cs, s => if cs.isPrefixOf s then [(s.drop cs.length, none)] else []
  | .cls p, s =>
    match s with
    | c :: rest => if p c then [(rest, none)] else []
    | [] => []
  | .starG p, s => starGMatches p s
  | .starL p, s => starLMatches p s
  | .cat a b, s =>
    (Re.matches a s).flatMap fun x =>
      (Re.matches b x.1).map fun y => (y.1, capMerge y.2 x.2)
  | .opt a, s => Re.matches a s ++ [(s, none)]
  | .grp a, s =>
    (Re.matches a s).map fun x => (x.1, some (s.take (s.length - x.1.length)))
  | .eos, s =>
    match s with
    | [] => [([], none)]
    | _ :: _ => []

/-- Leftmost match of the regex in the suffix `s` of the haystack, where
`pos` is the offset of `s` in the haystack. Returns the start offset,
the length of the matched text and the capture of group 1. -/
def Re.findAux (re : Re) : List Char → Nat → Option (Nat × Nat × Option (List Char))
  | s, pos =>
    match (re.matches s).head? with
    | some x => some (pos, s.length - x.1.length, x.2)
    | none =>
      match s with
      | [] => none
      | _ :: rest => Re.findAux re rest (pos + 1)

/-- Numeric value of a list of ASCII digits, most significant first. -/
def digitsVal (ds : List Char) : Nat :=
  ds.foldl (fun a c => a * 10 + (c.toNat - 48)) 0

/-- Value of a capture reference in a replacement string, given the whole
match `g0` and the capture of group 1 (Rust regex replacement syntax:
an all-digit name is a group index, any other or absent group gives the
empty string). -/
def groupLookup (g0 : List Char) (g1 : Option (List Char)) (name : List Char) : List Char :=
  if name ≠ [] ∧ name.all Char.isDigit then
    if digitsVal name = 0 then g0
    else if digitsVal name = 1 then g1.getD []
    else []
  else []

/-- Worker of `expandRepl`: scans the replacement string; the first
argument is the number of still-pending characters that have already
been consumed by a capture reference and must be skipped. -/
def expandGo : Nat → List Char → List Char → Option (List Char) → List Char
  | _, [], _, _ => []
  | Nat.succ k, _ :: rest, g0, g1 => expandGo k rest g0 g1
  | 0, c :: rest, g0, g1 =>
    if c = '$' then
      match rest with
      | [] => ['$']
      | d :: rest2 =>
        if d = '$' then '$' :: expandGo 1 rest g0 g1
        else if d = '{' then
          let name := rest2.takeWhile (fun x => x ≠ '}')
          let rem := rest2.dropWhile (fun x => x ≠ '}')
          if rem = [] ∨ name = [] then '$' :: '{' :: expandGo 1 rest g0 g1
          else groupLookup g0 g1 name ++ expandGo (name.length + 2) rest g0 g1
        else
          let name := rest.takeWhile nameChar
          if name = [] then '$' :: expandGo 0 rest g0 g1
          else groupLookup g0 g1 name ++ expandGo name.length rest g0 g1
    else c :: expandGo 0 rest g0 g1

/-- Interpolation of a replacement string, as done by `Regex::replace`
when given a `&str` replacement: `$$` is a literal `$`, `$name` (longest
run of word characters) and `$\x7bname\x7d` are capture references,
anything else is copied verbatim. -/
def expandRepl (repl g0 : List Char) (g1 : Option (List Char)) : List Char :=
  expandGo 0 repl g0 g1

/-- Replacement of the leftmost match by the interpolated replacement
string; the haystack is returned unchanged when there is no match
(models `Regex::replace`). -/
def Re.replaceFirst (re : Re) (s repl : List Char) : List Char :=
  match re.findAux s 0 with
  | none => s
  | some (st, len, cap) =>
    s.take st ++ expandRepl repl ((s.drop st).take len) cap ++ s.drop (st + len)

/-- ASCII lowercasing of one character; models the effect of Rust's
`str::to_lowercase` on ASCII input (the full Unicode lowercasing of
exotic characters such as the Kelvin sign is not modelled). -/
def lowerChar (c : Char) : Char :=
  if 65 ≤ c.toNat ∧ c.toNat ≤ 90 then Char.ofNat (c.toNat + 32) else c

/-- ASCII lowercasing of a string. -/
def asciiLower (s : List Char) : List Char := s.map lowerChar

/-- Splitting on a separator character; models Rust's `str::split`
(`"a-b"` gives `["a", "b"]`, an empty string gives `[""]`). -/
def splitChar (sep : Char) : List Char → List (List Char)
  | [] => [[]]
  | c :: rest =>
    if c = sep then [] :: splitChar sep rest
    else
      match splitChar sep rest with
      | h :: t => (c :: h) :: t
      | [] => [[c]]

/-- The line iterator of Rust's `str::lines`: splits on `'\n'`, does not
produce a final empty line for a trailing newline, and strips one
trailing `'\r'` from each line. -/
def rustLines (s : List Char) : List (List Char) :=
  if s = [] then []
  else
    let segs := splitChar '\n' s
    let segs := if s.getLast? = some '\n' then segs.dropLast else segs
    segs.map fun l => if l.getLast? = some '\r' then l.dropLast else l

/-- Removal of trailing white space; models `str::trim_end`. -/
def trimEnd (s : List Char) : List Char :=
  (s.reverse.dropWhile wsClass).reverse

/-- Removal of leading and trailing white space; models `str::trim`. -/
def rustTrim (s : List Char) : List Char :=
  (trimEnd s).dropWhile wsClass

/-- Worker of `natDigits`, accumulating digits from the least
significant one; the fuel argument only serves structural recursion and
is always sufficient. -/
def natDigitsAux : Nat → Nat → List Char → List Char
  | 0, _, acc => acc
  | Nat.succ fuel, n, acc =>
    if n < 10 then Char.ofNat (48 + n) :: acc
    else natDigitsAux fuel (n / 10) (Char.ofNat (48 + n % 10) :: acc)

/-- Decimal digits of a natural number, models integer `Display`. -/
def natDigits (n : Nat) : List Char := natDigitsAux (n + 1) n []

/-- Decimal rendering of an `i32`, models `format!` with a `{}` slot. -/
def intStr (i : Int) : List Char :=
  if i < 0 then '-' :: natDigits (-i).toNat else natDigits i.toNat

/-- Digit part of `parseI32?`: a non-empty all-digit string whose signed
value fits in an `i32`. -/
def parseDigits (sign : Int) (ds : List Char) : Option Int :=
  if ds ≠ [] ∧ ds.all Char.isDigit then
    let v : Int := sign * (digitsVal ds : Int)
    if -(2 ^ 31) ≤ v ∧ v ≤ 2 ^ 31 - 1 then some v else none
  else none

/-- Parsing of an `i32`, models `str::parse::<i32>`: optional sign, at
least one ASCII digit, within the `i32` range. -/
def parseI32? (s : List Char) : Option Int :=
  match s with
  | [] => none
  | c :: rest =>
    if c = '+' then parseDigits 1 rest
    else if c = '-' then parseDigits (-1) rest
    else parseDigits 1 (c :: rest)

/-- Comment-style table of `get_comment_style` (src/main.rs:125-142),
keyed by the lowercased file extension; `none` is a path without an
extension. Returns `(block start, line prefix, block end)`. -/
def getCommentStyle : Option (List Char) → List Char × List Char × List Char
  | some ext =>
    let e := asciiLower ext
    if e ∈ (["rs", "c", "cpp", "h", "hpp", "js", "jsx", "ts", "tsx", "go", "java",
             "swift", "kt", "scala", "css", "scss", "cs"].map String.data) then
      ("/*".data, " * ".data, " */".data)
    else if e ∈ (["py", "rb", "sh", "bash", "pl", "pm", "php"].map String.data) then
      ("#".data, "# ".data, "#".data)
    else if e = "lua".data then ("--[[".data, "-- ".data, "--]]".data)
    else if e = "html".data ∨ e = "xml".data then ("<!--".data, " ".data, "-->".data)
    else ("/*".data, " * ".data, " */".data)
  | none => ("#".data, "# ".data, "#".data)

/-- Recognized source-file extensions of `is_source_file`
(src/main.rs:109-122), with their leading dots. -/
def sourceExtensions : List (List Char) :=
  [".rs", ".py", ".js", ".jsx", ".ts", ".tsx", ".c", ".cpp", ".h", ".hpp", ".java",
   ".go", ".rb", ".php", ".swift", ".kt", ".cs", ".sh", ".bash", ".pl", ".pm",
   ".lua", ".scala", ".css", ".scss", ".html", ".xml", ".json"].map String.data

/-- The extension filter `is_source_file` (src/main.rs:109-122), as a
function of the file's extension (`none` when the path has none). -/
def isSourceFile : Option (List Char) → Bool
  | some ext => ('.' :: asciiLower ext) ∈ sourceExtensions
  | none => false

/-- The dispatch of `main` (src/main.rs:59-68): whether a file is passed
to `update_file`. A path that is itself a file is passed unconditionally
(src/main.rs:60-61); a file met during the directory walk is passed only
when `is_source_file` accepts its extension (src/main.rs:63-67).
`direct` is true when the file is the command-line path itself. -/
def reachesTransform (direct : Bool) (ext : Option (List Char)) : Bool :=
  if direct then true else isSourceFile ext

/-- Four decimal digits: the regex `\d{4}`. -/
def digit4Re : Re :=
  .cat (.cls isNd) (.cat (.cls isNd) (.cat (.cls isNd) (.cls isNd)))

/-- Capture group 1 of the copyright pattern: `(\d{4}(?:-\d{4})?)`. -/
def yearGrpRe : Re :=
  .grp (.cat digit4Re (.opt (.cat (.lits "-".data) digit4Re)))

/-- The copyright-header pattern of `update_file` (src/main.rs:172-177):
`{cs}\s*Copyright \(c\) (\d{4}(?:-\d{4})?)(?: {author}\s*.*?){ce}`
with the comment markers and the author regex-escaped (hence literal).
The non-capturing author group carries no quantifier in the source and is
therefore mandatory: a notice without the author is not detected. -/
def copyrightRe (cs ce author : List Char) : Re :=
  .cat (.lits cs)
    (.cat (.starG wsClass)
      (.cat (.lits "Copyright (c) ".data)
        (.cat yearGrpRe
          (.cat (.cat (.lits (' ' :: author))
                   (.cat (.starG wsClass) (.starL (fun c => c ≠ '\n'))))
            (.lits ce)))))

/-- The license-footer pattern of `update_file` (src/main.rs:237-241):
`(?s)\n\n{cs}\n.*?License:.*?\n.*?{ce}\s*$` with the comment markers
regex-escaped; `.` matches every character because of `(?s)`. -/
def licenseRe (cs ce : List Char) : Re :=
  .cat (.lits ('\n' :: '\n' :: cs ++ ['\n']))
    (.cat (.starL (fun _ => true))
      (.cat (.lits "License:".data)
        (.cat (.starL (fun _ => true))
          (.cat (.lits "\n".data)
            (.cat (.starL (fun _ => true))
              (.cat (.lits ce) (.cat (.starG wsClass) .eos)))))))

/-- The rewritten header text of `update_file` (src/main.rs:189-192 and
200-203): `format!` of the template
`{cs} Copyright (c) {start}-{current} {author} {ce}`. -/
def newCopyrightText (cs ce author : List Char) (startY currentY : Int) : List Char :=
  cs ++ " Copyright (c) ".data ++ intStr startY ++ "-".data ++ intStr currentY
    ++ " ".data ++ author ++ " ".data ++ ce

/-- The copyright-header engine of `update_file` (src/main.rs:180-212).
`none` models a panic of one of the `unwrap` calls on `caps.get(1)` or
`str::parse` (src/main.rs:181,184,185,196). -/
def headerStep (cs ce author : List Char) (currentYear : Int) (content : List Char) :
    Option (List Char) :=
  match (copyrightRe cs ce author).findAux content 0 with
  | some (_, _, cap) =>
    cap.bind fun ys =>
      if ys.contains '-' then
        ((splitChar '-' ys)[0]?).bind fun p0 =>
        ((splitChar '-' ys)[1]?).bind fun p1 =>
        (parseI32? p0).bind fun startYear =>
        (parseI32? p1).bind fun endYear =>
        if endYear = currentYear then some content
        else some ((copyrightRe cs ce author).replaceFirst content
          (newCopyrightText cs ce author startYear currentYear))
      else
        (parseI32? ys).bind fun year =>
        if year = currentYear then some content
        else some ((copyrightRe cs ce author).replaceFirst content
          (newCopyrightText cs ce author year currentYear))
  | none =>
    some (cs ++ " Copyright (c) ".data ++ intStr currentYear ++ " ".data
      ++ author ++ " ".data ++ ce ++ "\n\n".data ++ content)

/-- Join of a list of lines with newline separators, models
`Vec::join("\n")`. -/
def joinNl : List (List Char) → List Char
  | [] => []
  | [x] => x
  | x :: xs => x ++ '\n' :: joinNl xs

/-- The formatted license body of `update_file` (src/main.rs:215-225):
every line is rendered as `{line prefix}{line}`, blank lines as the line
prefix with trailing white space trimmed, joined by newlines. -/
def formatLicense (pre lic : List Char) : List Char :=
  joinNl ((rustLines lic).map fun line =>
    if rustTrim line = [] then trimEnd pre else pre ++ line)

/-- The rendered license footer of `update_file` (src/main.rs:227-230):
`format!` of `\n\n{cs}\n{pre}License:\n{formatted}\n{ce}`. -/
def licenseFooterText (cs pre ce lic : List Char) : List Char :=
  "\n\n".data ++ cs ++ "\n".data ++ pre ++ "License:\n".data
    ++ formatLicense pre lic ++ "\n".data ++ ce

/-- The license-footer engine of `update_file` (src/main.rs:244-252):
replace the detected footer block, otherwise trim trailing white space
and append the new footer. -/
def footerStep (cs pre ce lic : List Char) (content : List Char) : List Char :=
  if ((licenseRe cs ce).findAux content 0).isSome then
    (licenseRe cs ce).replaceFirst content (licenseFooterText cs pre ce lic)
  else
    trimEnd content ++ licenseFooterText cs pre ce lic

/-- The full pure transformation of `update_file` (src/main.rs:168-252)
on one file's content: resolve the comment style from the extension, run
the header engine, then the footer engine. `none` models a panic. -/
def updateFileContent (ext : Option (List Char)) (author lic : List Char)
    (currentYear : Int) (content : List Char) : Option (List Char) :=
  let style := getCommentStyle ext
  (headerStep style.1 style.2.2 author currentYear content).map
    (footerStep style.1 style.2.1 style.2.2 lic)

/-- Shape of the string captured by group 1 of the copyright pattern:
four decimal digits (`\d` digits, possibly non-ASCII), optionally
followed by a dash and four more. -/
def ndYearShape (ys : List Char) : Bool :=
  match ys with
  | [a, b, c, d] => isNd a && isNd b && isNd c && isNd d
  | [a, b, c, d, h, e, f, g, i] =>
    isNd a && isNd b && isNd c && isNd d && h = '-'
      && isNd e && isNd f && isNd g && isNd i
  | _ => false

/-- Year capture all of whose digits are ASCII: the shapes on which the
`str::parse` calls of `update_file` succeed. -/
def asciiYearShape (ys : List Char) : Bool :=
  match ys with
  | [a, b, c, d] => [a, b, c, d].all Char.isDigit
  | [a, b, c, d, h, e, f, g, i] =>
    [a, b, c, d].all Char.isDigit && h = '-' && [e, f, g, i].all Char.isDigit
  | _ => false

/-- Start year and optional end year of the notice left in place or
written back by `update_file`, mirroring the branches of
src/main.rs:180-206 on the captured year string `ys` and the current
year. -/
def resultNoticeYears (ys : List Char) (y : Int) : Int × Option Int :=
  if ys.contains '-' then
    if (parseI32? ((splitChar '-' ys)[1]?.getD [])).getD 0 = y then
      ((parseI32? ((splitChar '-' ys)[0]?.getD [])).getD 0,
        some ((parseI32? ((splitChar '-' ys)[1]?.getD [])).getD 0))
    else
      ((parseI32? ((splitChar '-' ys)[0]?.getD [])).getD 0, some y)
  else
    if (parseI32? ys).getD 0 = y then ((parseI32? ys).getD 0, none)
    else ((parseI32? ys).getD 0, some y)

/-- Modelled from the spec (section 6): the recognized source-extension
set as the specification enumerates it, without leading dots. -/
def recognizedSrcExts : List (List Char) :=
  ["rs", "py", "js", "jsx", "ts", "tsx", "c", "cpp", "h", "hpp", "java", "go",
   "rb", "php", "swift", "kt", "cs", "sh", "bash", "pl", "pm", "lua", "scala",
   "css", "scss", "html", "xml", "json"].map String.data

/-- Modelled from the spec (section 4.3): the footer block is
`\n\n{blockStart}\n{pre}License:\n{formatted lines}\n{blockEnd}` where
`pre` is the line-prefix marker, each blank license line (one whose
characters are all white space) renders as the line-prefix marker with
trailing white space trimmed, and every other line as the marker
followed by the line. -/
def footerSpecRendered (cs pre ce lic : List Char) : List Char :=
  "\n\n".data ++ cs ++ "\n".data ++ pre ++ "License:\n".data
    ++ joinNl ((rustLines lic).map fun line =>
        if line.all wsClass then trimEnd pre else pre ++ line)
    ++ "\n".data ++ ce

/-! ### Lemmas about replacement interpolation -/

theorem expandGo_nodollar_append (g0 : List Char) (g1 : Option (List Char)) :
    ∀ p b : List Char, '$' ∉ p → expandGo 0 (p ++ b) g0 g1 = p ++ expandGo 0 b g0 g1 := by
  intro p
  induction p with
  | nil => intro b _; rfl
  | cons c p ih =>
    intro b hc
    rw [List.mem_cons, not_or] at hc
    have hcne : ¬c = '$' := fun h => hc.1 h.symm
    simp only [List.cons_append, expandGo, if_neg hcne]
    exact congrArg (fun t => c :: t) (ih b hc.2)

theorem expandRepl_nodollar_append (p b g0 : List Char) (g1 : Option (List Char))
    (h : '$' ∉ p) : expandRepl (p ++ b) g0 g1 = p ++ expandRepl b g0 g1 :=
  expandGo_nodollar_append g0 g1 p b h

theorem expandRepl_nodollar (repl g0 : List Char) (g1 : Option (List Char))
    (h : '$' ∉ repl) : expandRepl repl g0 g1 = repl := by
  have h2 := expandGo_nodollar_append g0 g1 repl [] h
  simpa [expandRepl, expandGo] using h2

theorem replaceFirst_of_find (re : Re) (s repl : List Char) (st len : Nat)
    (cap : Option (List Char)) (h : re.findAux s 0 = some (st, len, cap)) :
    re.replaceFirst s repl =
      s.take st ++ expandRepl repl ((s.drop st).take len) cap ++ s.drop (st + len) := by
  simp [Re.replaceFirst, h]

/-! ### Lemmas about decimal rendering and parsing -/

theorem natDigitsAux_digits :
    ∀ fuel n : Nat, ∀ acc : List Char, (∀ c ∈ acc, c.isDigit = true) →
      ∀ c ∈ natDigitsAux fuel n acc, c.isDigit = true := by
  intro fuel
  induction fuel with
  | zero => intro n acc hacc; simpa [natDigitsAux] using hacc
  | succ fuel ih =>
    intro n acc hacc c hc
    have hd : ∀ m : Nat, m < 10 → (Char.ofNat (48 + m)).isDigit = true := by
      intro m hm
      interval_cases m <;> decide
    rw [natDigitsAux] at hc
    split at hc
    · rcases List.mem_cons.mp hc with h1 | h1
      · subst h1; exact hd n (by omega)
      · exact hacc c h1
    · refine ih _ _ ?_ c hc
      intro d hdm
      rcases List.mem_cons.mp hdm with h1 | h1
      · subst h1; exact hd _ (Nat.mod_lt _ (by omega))
      · exact hacc d h1

theorem natDigits_digits (n : Nat) : ∀ c ∈ natDigits n, c.isDigit = true :=
  natDigitsAux_digits (n + 1) n [] (by intro d hd; cases hd)

theorem intStr_no_dollar (i : Int) : '$' ∉ intStr i := by
  unfold intStr
  split
  · intro h
    rcases List.mem_cons.mp h with h1 | h1
    · exact absurd h1 (by decide)
    · exact absurd (natDigits_digits _ _ h1) (by decide)
  · intro h
    exact absurd (natDigits_digits _ _ h) (by decide)

theorem isDigit_toNat_bounds (c : Char) (h : c.isDigit = true) :
    48 ≤ c.toNat ∧ c.toNat ≤ 57 := by
  simp [Char.isDigit] at h
  exact h

theorem digitsVal_foldl_bound :
    ∀ ds : List Char, ds.all Char.isDigit = true → ∀ a : Nat,
      ds.foldl (fun a c => a * 10 + (c.toNat - 48)) a < (a + 1) * 10 ^ ds.length := by
  intro ds
  induction ds with
  | nil => intro _ a; simp
  | cons c tl ih =>
    intro hall a
    rw [List.all_cons, Bool.and_eq_true] at hall
    have hc := isDigit_toNat_bounds c hall.1
    have hstep := ih hall.2 (a * 10 + (c.toNat - 48))
    have hle : (a * 10 + (c.toNat - 48) + 1) * 10 ^ tl.length ≤ (a + 1) * 10 ^ (tl.length + 1) := by
      have h1 : a * 10 + (c.toNat - 48) + 1 ≤ (a + 1) * 10 := by omega
      calc (a * 10 + (c.toNat - 48) + 1) * 10 ^ tl.length
          ≤ ((a + 1) * 10) * 10 ^ tl.length := Nat.mul_le_mul_right _ h1
        _ = (a + 1) * 10 ^ (tl.length + 1) := by ring
    simp only [List.foldl_cons, List.length_cons]
    exact Nat.lt_of_lt_of_le hstep hle

theorem digitsVal_bound (ds : List Char) (h : ds.all Char.isDigit = true) :
    digitsVal ds < 10 ^ ds.length := by
  have h2 := digitsVal_foldl_bound ds h 0
  simpa [digitsVal] using h2

theorem parseI32_of_digits (ds : List Char) (hne : ds ≠ [])
    (hall : ds.all Char.isDigit = true) (hlen : ds.length ≤ 9) :
    parseI32? ds = some (digitsVal ds : Int) := by
  match ds, hne with
  | c :: rest, _ =>
    rw [List.all_cons, Bool.and_eq_true] at hall
    have hc := isDigit_toNat_bounds c hall.1
    have hplus : ¬c = '+' := by
      intro h; subst h; exact absurd hc (by decide)
    have hminus : ¬c = '-' := by
      intro h; subst h; exact absurd hc (by decide)
    rw [parseI32?]
    rw [if_neg hplus, if_neg hminus]
    have hall2 : (c :: rest).all Char.isDigit = true := by
      rw [List.all_cons, Bool.and_eq_true]; exact ⟨hall.1, hall.2⟩
    have hbound := digitsVal_bound (c :: rest) hall2
    have hlen2 : 10 ^ (c :: rest).length ≤ 10 ^ 9 := Nat.pow_le_pow_right (by omega) hlen
    rw [parseDigits]
    rw [if_pos ⟨by simp, hall2⟩]
    simp only [one_mul]
    rw [if_pos]
    constructor
    · have : (0 : Int) ≤ (digitsVal (c :: rest) : Int) := Int.ofNat_nonneg _
      omega
    · have : (digitsVal (c :: rest) : Int) < ((10 : Nat) ^ 9 : Nat) := by
        exact_mod_cast Nat.lt_of_lt_of_le hbound hlen2
      omega

/-! ### Lemmas about splitting -/

theorem splitChar_ne_nil (sep : Char) : ∀ s : List Char, splitChar sep s ≠ [] := by
  intro s
  cases s with
  | nil => simp [splitChar]
  | cons c rest =>
    rw [splitChar]
    split
    · simp
    · cases h : splitChar sep rest <;> simp

theorem splitChar_no_sep (sep : Char) :
    ∀ s : List Char, sep ∉ s → splitChar sep s = [s] := by
  intro s
  induction s with
  | nil => intro _; rfl
  | cons c rest ih =>
    intro hmem
    rw [List.mem_cons, not_or] at hmem
    have hne : ¬c = sep := fun h => hmem.1 h.symm
    rw [splitChar, if_neg hne, ih hmem.2]

theorem splitChar_append_sep (sep : Char) :
    ∀ a b : List Char, sep ∉ a →
      splitChar sep (a ++ sep :: b) = a :: splitChar sep b := by
  intro a
  induction a with
  | nil => intro b _; simp [splitChar]
  | cons c a ih =>
    intro b hmem
    rw [List.mem_cons, not_or] at hmem
    have hne : ¬c = sep := fun h => hmem.1 h.symm
    rw [List.cons_append, splitChar, if_neg hne, ih b hmem.2]

/-! ### Lemmas about the year-capture shapes -/

theorem contains_true_mem (l : List Char) (a : Char) (h : l.contains a = true) : a ∈ l :=
  List.elem_iff.mp h

theorem contains_false_not_mem (l : List Char) (a : Char) (h : l.contains a = false) :
    a ∉ l := by
  intro hm
  have h2 : l.contains a = true := List.elem_iff.mpr hm
  rw [h2] at h
  cases h

theorem asciiYearShape_single (ys : List Char) (hsh : asciiYearShape ys = true)
    (hc : ys.contains '-' = false) :
    ys ≠ [] ∧ ys.all Char.isDigit = true ∧ ys.length ≤ 9 := by
  match ys with
  | [a, b, c, d] =>
    rw [asciiYearShape] at hsh
    refine ⟨by simp, hsh, by simp⟩
  | [a, b, c, d, h, e, f, g, i] =>
    rw [asciiYearShape] at hsh
    simp only [Bool.and_eq_true, decide_eq_true_eq] at hsh
    exfalso
    obtain ⟨⟨_, hdash⟩, _⟩ := hsh
    subst hdash
    exact contains_false_not_mem _ _ hc (by simp)

theorem asciiYearShape_range (ys : List Char) (hsh : asciiYearShape ys = true)
    (hc : ys.contains '-' = true) :
    ∃ a b : List Char, ys = a ++ '-' :: b ∧ '-' ∉ a ∧
      a ≠ [] ∧ a.all Char.isDigit = true ∧ a.length ≤ 9 ∧
      b ≠ [] ∧ b.all Char.isDigit = true ∧ b.length ≤ 9 ∧
      splitChar '-' ys = [a, b] := by
  match ys with
  | [a, b, c, d] =>
    rw [asciiYearShape] at hsh
    exfalso
    rw [List.all_eq_true] at hsh
    have hmem := contains_true_mem _ _ hc
    exact absurd (hsh _ hmem) (by decide)
  | [a, b, c, d, h, e, f, g, i] =>
    rw [asciiYearShape] at hsh
    simp only [Bool.and_eq_true, decide_eq_true_eq] at hsh
    obtain ⟨⟨h4, hdash⟩, h4'⟩ := hsh
    subst hdash
    have hnomem : '-' ∉ [a, b, c, d] := by
      intro hmem
      rw [List.all_eq_true] at h4
      exact absurd (h4 _ hmem) (by decide)
    have hnomem2 : '-' ∉ [e, f, g, i] := by
      intro hmem
      rw [List.all_eq_true] at h4'
      exact absurd (h4' _ hmem) (by decide)
    refine ⟨[a, b, c, d], [e, f, g, i], by simp, hnomem, by simp, h4, by simp,
      by simp, h4', by simp, ?_⟩
    have hsp := splitChar_append_sep '-' [a, b, c, d] [e, f, g, i] hnomem
    rw [splitChar_no_sep '-' [e, f, g, i] hnomem2] at hsp
    exact hsp

/-! ### Lemmas about the comment styles and the rewritten header text -/

theorem style_no_dollar (ext : Option (List Char)) :
    '$' ∉ (getCommentStyle ext).1 ∧ '$' ∉ (getCommentStyle ext).2.1 ∧
      '$' ∉ (getCommentStyle ext).2.2 := by
  match ext with
  | none => exact ⟨by decide, by decide, by decide⟩
  | some e =>
    simp only [getCommentStyle]
    split
    · exact ⟨by decide, by decide, by decide⟩
    · split
      · exact ⟨by decide, by decide, by decide⟩
      · split
        · exact ⟨by decide, by decide, by decide⟩
        · split
          · exact ⟨by decide, by decide, by decide⟩
          · exact ⟨by decide, by decide, by decide⟩

theorem nodollar_parts (cs : List Char) (hcs : '$' ∉ cs) (s y : Int) :
    '$' ∉ cs ++ " Copyright (c) ".data ++ intStr s ++ "-".data ++ intStr y ++ " ".data := by
  simp only [List.mem_append, not_or]
  exact ⟨⟨⟨⟨⟨hcs, by decide⟩, intStr_no_dollar s⟩, by decide⟩, intStr_no_dollar y⟩, by decide⟩

theorem expand_newCopyright (cs ce author : List Char) (hcs : '$' ∉ cs)
    (s y : Int) (g0 : List Char) (g1 : Option (List Char)) :
    expandRepl (newCopyrightText cs ce author s y) g0 g1 =
      cs ++ " Copyright (c) ".data ++ intStr s ++ "-".data ++ intStr y ++ " ".data
        ++ expandRepl (author ++ " ".data ++ ce) g0 g1 := by
  have heq : newCopyrightText cs ce author s y =
      (cs ++ " Copyright (c) ".data ++ intStr s ++ "-".data ++ intStr y ++ " ".data)
        ++ (author ++ " ".data ++ ce) := by
    simp [newCopyrightText, List.append_assoc]
  rw [heq, expandRepl_nodollar_append _ _ _ _ (nodollar_parts cs hcs s y)]

/-! ### Reduction of the header engine on a detected notice -/

theorem headerStep_single (cs ce author : List Char) (y : Int) (content : List Char)
    (st len : Nat) (ys : List Char)
    (hf : (copyrightRe cs ce author).findAux content 0 = some (st, len, some ys))
    (hall : ys.all Char.isDigit = true) (hne : ys ≠ []) (hlen : ys.length ≤ 9)
    (hnc : ys.contains '-' = false) :
    headerStep cs ce author y content =
      some (if (digitsVal ys : Int) = y then content
            else (copyrightRe cs ce author).replaceFirst content
              (newCopyrightText cs ce author (digitsVal ys) y)) := by
  rw [headerStep, hf]
  simp only [Option.some_bind, hnc, Bool.false_eq_true, if_false,
    parseI32_of_digits ys hne hall hlen]
  split <;> rfl

theorem headerStep_range (cs ce author : List Char) (y : Int) (content : List Char)
    (st len : Nat) (ys a b : List Char)
    (hf : (copyrightRe cs ce author).findAux content 0 = some (st, len, some ys))
    (hc : ys.contains '-' = true)
    (hsp : splitChar '-' ys = [a, b])
    (hane : a ≠ []) (haall : a.all Char.isDigit = true) (halen : a.length ≤ 9)
    (hbne : b ≠ []) (hball : b.all Char.isDigit = true) (hblen : b.length ≤ 9) :
    headerStep cs ce author y content =
      some (if (digitsVal b : Int) = y then content
            else (copyrightRe cs ce author).replaceFirst content
              (newCopyrightText cs ce author (digitsVal a) y)) := by
  rw [headerStep, hf]
  simp only [Option.some_bind, hc, if_true, hsp,
    List.getElem?_cons_zero, List.getElem?_cons_succ,
    parseI32_of_digits a hane haall halen, parseI32_of_digits b hbne hball hblen]
  split <;> rfl

/-! ### Claim C2: year update of a detected notice -/

/-- C2 (amended): when the header pattern detects a copyright notice and the
captured year digits are ASCII, the header engine rewrites exactly the
matched span and nothing else: a single year equal to the current year, or a
range whose end equals the current year, leaves the content unchanged; a
single year `Y` different from the current year is rewritten with the range
`Y-{currentYear}`; a range `S-E` with `E` different from the current year is
rewritten with the range `S-{currentYear}` (start year preserved); the
content before and after the matched notice is kept verbatim. (The ASCII
restriction is forced by the counterexample
`headerEngine_unicode_digits_cex`: on non-ASCII `\d` digits the code
panics.) -/
theorem headerEngine_year_update
    (ext : Option (List Char)) (cs pre ce author : List Char) (y : Int)
    (content : List Char) (st len : Nat) (ys : List Char)
    (hstyle : getCommentStyle ext = (cs, pre, ce))
    (hf : (copyrightRe cs ce author).findAux content 0 = some (st, len, some ys))
    (hsh : asciiYearShape ys = true) :
    (ys.contains '-' = false →
      ((digitsVal ys : Int) = y → headerStep cs ce author y content = some content) ∧
      ((digitsVal ys : Int) ≠ y → headerStep cs ce author y content =
        some (content.take st
          ++ (cs ++ " Copyright (c) ".data ++ intStr (digitsVal ys) ++ "-".data
              ++ intStr y ++ " ".data
              ++ expandRepl (author ++ " ".data ++ ce) ((content.drop st).take len) (some ys))
          ++ content.drop (st + len)))) ∧
    (ys.contains '-' = true →
      ∃ a b : List Char, splitChar '-' ys = [a, b] ∧
        ((digitsVal b : Int) = y → headerStep cs ce author y content = some content) ∧
        ((digitsVal b : Int) ≠ y → headerStep cs ce author y content =
          some (content.take st
            ++ (cs ++ " Copyright (c) ".data ++ intStr (digitsVal a) ++ "-".data
                ++ intStr y ++ " ".data
                ++ expandRepl (author ++ " ".data ++ ce) ((content.drop st).take len) (some ys))
            ++ content.drop (st + len)))) := by
  have hcs : '$' ∉ cs := by
    have h := (style_no_dollar ext).1
    rw [hstyle] at h
    exact h
  constructor
  · intro hnc
    obtain ⟨hne, hall, hlen⟩ := asciiYearShape_single ys hsh hnc
    have hstep := headerStep_single cs ce author y content st len ys hf hall hne hlen hnc
    constructor
    · intro hy; rw [hstep, if_pos hy]
    · intro hy
      rw [hstep, if_neg hy, replaceFirst_of_find _ _ _ _ _ _ hf,
        expand_newCopyright cs ce author hcs]
  · intro hc
    obtain ⟨a, b, hys, hnamem, hane, haall, halen, hbne, hball, hblen, hsp⟩ :=
      asciiYearShape_range ys hsh hc
    have hstep := headerStep_range cs ce author y content st len ys a b hf hc hsp
      hane haall halen hbne hball hblen
    refine ⟨a, b, hsp, ?_, ?_⟩
    · intro hy; rw [hstep, if_pos hy]
    · intro hy
      rw [hstep, if_neg hy, replaceFirst_of_find _ _ _ _ _ _ hf,
        expand_newCopyright cs ce author hcs]

/-- C2 (counterexample): this content contains a copyright notice matching
the current author and comment style (the pattern's `\d` accepts Unicode
decimal digits), yet the header engine produces no output at all: the
`str::parse::<i32>().unwrap()` on the captured Arabic-Indic year panics. -/
theorem headerEngine_unicode_digits_cex :
    getCommentStyle (some "py".data) = ("#".data, "# ".data, "#".data) ∧
    (copyrightRe "#".data "#".data "A".data).findAux
        "# Copyright (c) ٢٠٢١ A #".data 0 = some (0, 24, some "٢٠٢١".data) ∧
    headerStep "#".data "#".data "A".data 2025 "# Copyright (c) ٢٠٢١ A #".data = none := by
  decide

/-- C2 (witness): concrete single-year bump, `2021` to `2021-2025`. -/
theorem headerEngine_year_update_witness :
    headerStep "/*".data " */".data "A".data 2025 "/* Copyright (c) 2021 A */".data =
      some "/* Copyright (c) 2021-2025 A  */".data := by
  have h := headerEngine_year_update (some "rs".data) "/*".data " * ".data " */".data
    "A".data 2025 "/* Copyright (c) 2021 A */".data 0 26 "2021".data
    (by decide) (by decide) (by decide)
  have h2 := (h.1 (by decide)).2 (by decide)
  rw [h2]
  decide

/-! ### Claim C3: insertion of a fresh header -/

/-- C3: when no copyright notice matching the current author and comment
style is detected, the header engine's output is exactly the line
`{blockStart} Copyright (c) {currentYear} {author} {blockEnd}`, a blank
line, then the original content verbatim; in particular the full transform
on the spec's fresh-file scenario (`print('x')`, `.py`, `Jane Doe`, 2025)
produces output beginning `# Copyright (c) 2025 Jane Doe #\n\nprint('x')`. -/
theorem headerEngine_insert_fresh :
    (∀ (ext : Option (List Char)) (cs pre ce author : List Char) (y : Int)
        (content : List Char),
      getCommentStyle ext = (cs, pre, ce) →
      (copyrightRe cs ce author).findAux content 0 = none →
      headerStep cs ce author y content =
        some (cs ++ " Copyright (c) ".data ++ intStr y ++ " ".data ++ author
          ++ " ".data ++ ce ++ "\n\n".data ++ content)) ∧
    updateFileContent (some "py".data) "Jane Doe".data
        "MIT License\n\nPermission granted.".data 2025 "print('x')".data =
      some ("# Copyright (c) 2025 Jane Doe #\n\nprint('x')\n\n#\n# License:\n# MIT License\n#\n# Permission granted.\n#".data) ∧
    ("# Copyright (c) 2025 Jane Doe #\n\nprint('x')".data).isPrefixOf
      ("# Copyright (c) 2025 Jane Doe #\n\nprint('x')\n\n#\n# License:\n# MIT License\n#\n# Permission granted.\n#".data) = true := by
  refine ⟨?_, by decide, by decide⟩
  intro ext cs pre ce author y content hstyle hf
  rw [headerStep, hf]

/-- C3 (witness): fresh insertion on a one-character hash-style file. -/
theorem headerEngine_insert_fresh_witness :
    headerStep "#".data "#".data "A".data 2025 "q".data =
      some "# Copyright (c) 2025 A #\n\nq".data := by
  have h := headerEngine_insert_fresh.1 none "#".data "# ".data "#".data "A".data 2025
    "q".data (by decide) (by decide)
  rw [h]
  decide

/-! ### Claim C1: idempotence of the full transform -/

/-- C1 (code bug): the full transform is not idempotent. On this content the
first run appends a footer; on the second run the footer pattern's leftmost
dot-all match starts at the interior comment-like block `\n\n#\nq License: z`
and extends to the end of the file, so the replacement deletes the text
between that block and the real footer. -/
theorem updateFile_not_idempotent :
    ((updateFileContent (some "py".data) "A".data "L".data 2025
        "x\n\n#\nq License: z\n".data).bind
      (updateFileContent (some "py".data) "A".data "L".data 2025)) ≠
    updateFileContent (some "py".data) "A".data "L".data 2025
      "x\n\n#\nq License: z\n".data := by
  decide

/-! ### Claim C6: no-op stability -/

/-- C6 (code bug): this content already carries a header for the current
author ending in the current year and ends with the byte-identical rendered
footer, yet the transform changes it: the footer pattern's leftmost match
starts at the interior `\n\n#\nq License: z` block, and the replacement
deletes that text. -/
theorem updateFile_noop_stability_fails :
    (copyrightRe "#".data "#".data "A".data).findAux
        "# Copyright (c) 2025 A #\n\nx\n\n#\nq License: z\n\n#\n# License:\n# L\n#".data 0
      = some (0, 24, some "2025".data) ∧
    (licenseFooterText "#".data "# ".data "#".data "L".data).isSuffixOf
      "# Copyright (c) 2025 A #\n\nx\n\n#\nq License: z\n\n#\n# License:\n# L\n#".data = true ∧
    updateFileContent (some "py".data) "A".data "L".data 2025
        "# Copyright (c) 2025 A #\n\nx\n\n#\nq License: z\n\n#\n# License:\n# L\n#".data ≠
      some "# Copyright (c) 2025 A #\n\nx\n\n#\nq License: z\n\n#\n# License:\n# L\n#".data := by
  decide

/-! ### Lemmas about trimming and blank lines -/

theorem mem_trimEnd (c : Char) (l : List Char) (h : c ∈ trimEnd l) : c ∈ l := by
  unfold trimEnd at h
  rw [List.mem_reverse] at h
  exact List.mem_reverse.mp ((List.dropWhile_sublist _).subset h)

theorem trimEnd_decomp (l : List Char) :
    l = trimEnd l ++ (l.reverse.takeWhile wsClass).reverse := by
  conv_lhs => rw [← List.reverse_reverse l,
    ← List.takeWhile_append_dropWhile (p := wsClass) (l := l.reverse)]
  rw [List.reverse_append]
  rfl

theorem rustTrim_eq_nil_iff (l : List Char) :
    rustTrim l = [] ↔ l.all wsClass = true := by
  unfold rustTrim
  rw [List.dropWhile_eq_nil_iff, List.all_eq_true]
  constructor
  · intro h c hc
    conv at hc => rw [trimEnd_decomp l]
    rcases List.mem_append.mp hc with h1 | h1
    · exact h c h1
    · exact List.mem_takeWhile_imp (List.mem_reverse.mp h1)
  · intro h c hc
    exact h c (mem_trimEnd c l hc)

/-! ### Claim C4: rendering of the footer block -/

/-- C4: for every comment style and license text, the footer block the code
renders is exactly the spec's
`\n\n{blockStart}\n{pre}License:\n{formatted lines}\n{blockEnd}` with each
blank license line rendered as the trailing-trimmed line prefix and every
other line as the prefix followed by the line. -/
theorem footer_rendering_matches_spec (cs pre ce lic : List Char) :
    licenseFooterText cs pre ce lic = footerSpecRendered cs pre ce lic := by
  have hmap : (rustLines lic).map
        (fun line => if rustTrim line = [] then trimEnd pre else pre ++ line)
      = (rustLines lic).map
        (fun line => if line.all wsClass then trimEnd pre else pre ++ line) := by
    apply List.map_congr_left
    intro line _
    by_cases h : rustTrim line = []
    · rw [if_pos h, if_pos ((rustTrim_eq_nil_iff line).mp h)]
    · rw [if_neg h, if_neg (fun hh => h ((rustTrim_eq_nil_iff line).mpr hh))]
  unfold licenseFooterText footerSpecRendered formatLicense
  rw [hmap]

/-! ### Lemmas for the footer engine: the rendered footer has no dollar -/

theorem joinNl_not_mem (c : Char) (hc : c ≠ '\n') :
    ∀ xs : List (List Char), (∀ x ∈ xs, c ∉ x) → c ∉ joinNl xs := by
  intro xs
  induction xs with
  | nil => intro _; simp [joinNl]
  | cons x xs ih =>
    intro h
    cases xs with
    | nil => simpa [joinNl] using h x (by simp)
    | cons z zs =>
      have hj : joinNl (x :: z :: zs) = x ++ '\n' :: joinNl (z :: zs) := rfl
      rw [hj]
      intro hmem
      rcases List.mem_append.mp hmem with h1 | h1
      · exact h x (by simp) h1
      · rcases List.mem_cons.mp h1 with h2 | h2
        · exact hc h2
        · exact ih (fun w hw => h w (List.mem_cons_of_mem _ hw)) h2

theorem splitChar_mem_sub (sep c : Char) :
    ∀ s : List Char, c ∉ s → ∀ l ∈ splitChar sep s, c ∉ l := by
  intro s
  induction s with
  | nil =>
    intro _ l hl
    rw [splitChar] at hl
    simp only [List.mem_singleton] at hl
    subst hl; simp
  | cons a rest ih =>
    intro hns l hl
    rw [List.mem_cons, not_or] at hns
    rw [splitChar] at hl
    split at hl
    · rcases List.mem_cons.mp hl with h1 | h1
      · subst h1; simp
      · exact ih hns.2 l h1
    · rcases hsp : splitChar sep rest with _ | ⟨h0, t⟩
      · exact absurd hsp (splitChar_ne_nil sep rest)
      · rw [hsp] at hl
        rcases List.mem_cons.mp hl with h1 | h1
        · subst h1
          intro hmem
          rcases List.mem_cons.mp hmem with h2 | h2
          · exact hns.1 h2
          · exact ih hns.2 h0 (by rw [hsp]; exact List.mem_cons_self _ _) h2
        · exact ih hns.2 l (by rw [hsp]; exact List.mem_cons_of_mem _ h1)

theorem rustLines_mem_sub (c : Char) (s : List Char) (hns : c ∉ s) :
    ∀ l ∈ rustLines s, c ∉ l := by
  intro l hl
  unfold rustLines at hl
  split at hl
  · simp at hl
  · rw [List.mem_map] at hl
    obtain ⟨l0, hl0, rfl⟩ := hl
    have hl0' : l0 ∈ splitChar '\n' s := by
      revert hl0
      split
      · intro h; exact (List.dropLast_sublist _).subset h
      · intro h; exact h
    have hsub := splitChar_mem_sub '\n' c s hns l0 hl0'
    split
    · intro hm; exact hsub ((List.dropLast_sublist _).subset hm)
    · exact hsub

theorem footer_no_dollar (ext : Option (List Char)) (cs pre ce lic : List Char)
    (hstyle : getCommentStyle ext = (cs, pre, ce)) (hlic : '$' ∉ lic) :
    '$' ∉ licenseFooterText cs pre ce lic := by
  obtain ⟨h1, h23⟩ := style_no_dollar ext
  obtain ⟨h2, h3⟩ := h23
  rw [hstyle] at h1 h2 h3
  have hfmt : '$' ∉ formatLicense pre lic := by
    unfold formatLicense
    apply joinNl_not_mem '$' (by decide)
    intro x hx
    rw [List.mem_map] at hx
    obtain ⟨line, hline, rfl⟩ := hx
    have hnl : '$' ∉ line := rustLines_mem_sub '$' lic hlic line hline
    split
    · intro hm; exact h2 (mem_trimEnd _ _ hm)
    · intro hm
      rcases List.mem_append.mp hm with hm | hm
      · exact h2 hm
      · exact hnl hm
  unfold licenseFooterText
  simp only [List.mem_append, not_or]
  exact ⟨⟨⟨⟨⟨⟨⟨by decide, h1⟩, by decide⟩, h2⟩, by decide⟩, hfmt⟩, by decide⟩, h3⟩

/-! ### Claim C5: detection and decision of the footer engine -/

/-- C5 (amended): with the comment style resolved from the extension and a
license text containing no `$` character, the footer engine replaces the
detected footer block (the leftmost match of the footer pattern) with the
newly formatted footer, and otherwise trims trailing white space and
appends the new footer. (The `$`-restriction is forced by the
counterexample `footerEngine_dollar_cex`: `Regex::replace` interpolates
`$`-references of the replacement string.) -/
theorem footerEngine_decision
    (ext : Option (List Char)) (cs pre ce lic content : List Char)
    (hstyle : getCommentStyle ext = (cs, pre, ce)) (hlic : '$' ∉ lic) :
    (∀ st len cap, (licenseRe cs ce).findAux content 0 = some (st, len, cap) →
      footerStep cs pre ce lic content =
        content.take st ++ licenseFooterText cs pre ce lic ++ content.drop (st + len)) ∧
    ((licenseRe cs ce).findAux content 0 = none →
      footerStep cs pre ce lic content =
        trimEnd content ++ licenseFooterText cs pre ce lic) := by
  constructor
  · intro st len cap hf
    rw [footerStep, hf]
    simp only [Option.isSome_some, if_true]
    rw [replaceFirst_of_find _ _ _ _ _ _ hf,
      expandRepl_nodollar _ _ _ (footer_no_dollar ext cs pre ce lic hstyle hlic)]
  · intro hf
    rw [footerStep, hf]
    simp

/-- C5 (counterexample): the content contains a footer block in the current
style, but with license text `$0` the replacement is not the newly
formatted footer: `Regex::replace` interpolates `$0` as the whole matched
block. -/
theorem footerEngine_dollar_cex :
    (licenseRe "#".data "#".data).findAux "x\n\n#\n# License:\n# old\n#".data 0
      = some (1, 22, none) ∧
    footerStep "#".data "# ".data "#".data "$0".data "x\n\n#\n# License:\n# old\n#".data ≠
      "x".data ++ licenseFooterText "#".data "# ".data "#".data "$0".data := by
  decide

/-- C5 (witness): concrete footer replacement on a hash-style file. -/
theorem footerEngine_decision_witness :
    footerStep "#".data "# ".data "#".data "L".data "x\n\n#\n# License:\n# old\n#".data =
      "x".data ++ licenseFooterText "#".data "# ".data "#".data "L".data := by
  have h := (footerEngine_decision (some "py".data) "#".data "# ".data "#".data "L".data
    "x\n\n#\n# License:\n# old\n#".data (by decide) (by decide)).1 1 22 none (by decide)
  rw [h]
  decide

/-! ### Claim C7: the comment-style table -/

/-- C7: `get_comment_style` is total by construction, case-insensitive (its
result depends only on the ASCII-lowercased extension), maps each extension
group of the table to its style, gives unknown extensions the C style, and
gives extensionless paths the hash style. -/
theorem commentStyle_table_correct :
    (∀ e1 e2 : List Char, asciiLower e1 = asciiLower e2 →
      getCommentStyle (some e1) = getCommentStyle (some e2)) ∧
    (∀ e : List Char, asciiLower e ∈
        (["rs", "c", "cpp", "h", "hpp", "js", "jsx", "ts", "tsx", "go", "java",
          "swift", "kt", "scala", "css", "scss", "cs"].map String.data) →
      getCommentStyle (some e) = ("/*".data, " * ".data, " */".data)) ∧
    (∀ e : List Char, asciiLower e ∈
        (["py", "rb", "sh", "bash", "pl", "pm", "php"].map String.data) →
      getCommentStyle (some e) = ("#".data, "# ".data, "#".data)) ∧
    (∀ e : List Char, asciiLower e = "lua".data →
      getCommentStyle (some e) = ("--[[".data, "-- ".data, "--]]".data)) ∧
    (∀ e : List Char, asciiLower e = "html".data ∨ asciiLower e = "xml".data →
      getCommentStyle (some e) = ("<!--".data, " ".data, "-->".data)) ∧
    (∀ e : List Char,
      asciiLower e ∉
        (["rs", "c", "cpp", "h", "hpp", "js", "jsx", "ts", "tsx", "go", "java",
          "swift", "kt", "scala", "css", "scss", "cs"].map String.data) →
      asciiLower e ∉ (["py", "rb", "sh", "bash", "pl", "pm", "php"].map String.data) →
      asciiLower e ≠ "lua".data →
      ¬(asciiLower e = "html".data ∨ asciiLower e = "xml".data) →
      getCommentStyle (some e) = ("/*".data, " * ".data, " */".data)) ∧
    getCommentStyle none = ("#".data, "# ".data, "#".data) := by
  refine ⟨?_, ?_, ?_, ?_, ?_, ?_, rfl⟩
  · intro e1 e2 h
    simp only [getCommentStyle]
    rw [h]
  · intro e he
    simp only [getCommentStyle]
    rw [if_pos he]
  · intro e he
    have hnc : asciiLower e ∉
        (["rs", "c", "cpp", "h", "hpp", "js", "jsx", "ts", "tsx", "go", "java",
          "swift", "kt", "scala", "css", "scss", "cs"].map String.data) := by
      intro hc
      simp only [List.map_cons, List.map_nil, List.mem_cons,
        List.not_mem_nil, or_false] at he hc
      rcases he with h | h | h | h | h | h | h <;> rw [h] at hc <;>
        exact absurd hc (by decide)
    simp only [getCommentStyle]
    rw [if_neg hnc, if_pos he]
  · intro e he
    have hnc : asciiLower e ∉
        (["rs", "c", "cpp", "h", "hpp", "js", "jsx", "ts", "tsx", "go", "java",
          "swift", "kt", "scala", "css", "scss", "cs"].map String.data) := by
      rw [he]; decide
    have hnh : asciiLower e ∉
        (["py", "rb", "sh", "bash", "pl", "pm", "php"].map String.data) := by
      rw [he]; decide
    simp only [getCommentStyle]
    rw [if_neg hnc, if_neg hnh, if_pos he]
  · intro e he
    have hnc : asciiLower e ∉
        (["rs", "c", "cpp", "h", "hpp", "js", "jsx", "ts", "tsx", "go", "java",
          "swift", "kt", "scala", "css", "scss", "cs"].map String.data) := by
      rcases he with h | h <;> rw [h] <;> decide
    have hnh : asciiLower e ∉
        (["py", "rb", "sh", "bash", "pl", "pm", "php"].map String.data) := by
      rcases he with h | h <;> rw [h] <;> decide
    have hnl : ¬asciiLower e = "lua".data := by
      rcases he with h | h <;> rw [h] <;> decide
    simp only [getCommentStyle]
    rw [if_neg hnc, if_neg hnh, if_neg hnl, if_pos he]
  · intro e h1 h2 h3 h4
    simp only [getCommentStyle]
    rw [if_neg h1, if_neg h2, if_neg h3, if_neg h4]

/-- C7 (witness): the table at the concrete upper-case extension `RS`. -/
theorem commentStyle_table_correct_witness :
    getCommentStyle (some "RS".data) = ("/*".data, " * ".data, " */".data) :=
  commentStyle_table_correct.2.1 "RS".data (by decide)

/-! ### Claim C9: the source-file extension filter -/

/-- C9 (counterexample): a file given directly as the command-line path is
passed to `update_file` unconditionally (src/main.rs:60-61), even when it
has no extension or an unrecognized one, so a file with an unrecognized
extension is not "never transformed". -/
theorem sourceFile_filter_cex :
    reachesTransform true none = true ∧ isSourceFile none = false ∧
    reachesTransform true (some "exe".data) = true ∧
    isSourceFile (some "exe".data) = false := by
  decide

/-- C9 (amended): files met by the recursive directory traversal are
passed to the transform exactly when their ASCII-lowercased extension is
in the recognized source-extension set of the spec, so a walked file with
no extension or an unrecognized extension is never transformed; a file
path given directly on the command line, however, reaches the transform
unconditionally, regardless of extension. -/
theorem sourceFile_filter_correct :
    (∀ ext : Option (List Char),
      reachesTransform false ext = true ↔ isSourceFile ext = true) ∧
    (∀ ext : Option (List Char), reachesTransform true ext = true) ∧
    (∀ e : List Char, isSourceFile (some e) = true ↔ asciiLower e ∈ recognizedSrcExts) ∧
    isSourceFile none = false := by
  refine ⟨fun ext => Iff.rfl, fun ext => rfl, ?_, rfl⟩
  intro e
  have hlist : sourceExtensions = recognizedSrcExts.map (fun l => '.' :: l) := by decide
  rw [isSourceFile, decide_eq_true_iff, hlist, List.mem_map]
  constructor
  · rintro ⟨a, ha, heq⟩
    obtain ⟨-, rfl⟩ := List.cons.inj heq
    exact ha
  · intro h
    exact ⟨asciiLower e, h, rfl⟩

/-! ### Claim C8: the year-range invariant of output notices -/

/-- C8 (amended): provided the start year detected in the matched notice is
at most the current year, the notice the header engine leaves in place or
writes back satisfies the `CopyrightNotice` invariant: its end year, when
present, is at least its start year. The engine's output is the unchanged
content or the content with exactly the matched span rewritten to the
range `{start}-{currentYear}`. (The start-year restriction is forced by
the counterexample `notice_invariant_cex`: a detected year in the future
yields a notice whose end year is smaller than its start year.) -/
theorem notice_invariant_amended
    (ext : Option (List Char)) (cs pre ce author : List Char) (y : Int)
    (content : List Char) (st len : Nat) (ys : List Char)
    (hstyle : getCommentStyle ext = (cs, pre, ce))
    (hf : (copyrightRe cs ce author).findAux content 0 = some (st, len, some ys))
    (hsh : asciiYearShape ys = true)
    (hstart : (resultNoticeYears ys y).1 ≤ y) :
    (∀ yE : Int, (resultNoticeYears ys y).2 = some yE → (resultNoticeYears ys y).1 ≤ yE) ∧
    (headerStep cs ce author y content = some content ∨
     headerStep cs ce author y content =
       some (content.take st
         ++ (cs ++ " Copyright (c) ".data ++ intStr (resultNoticeYears ys y).1
             ++ "-".data ++ intStr y ++ " ".data
             ++ expandRepl (author ++ " ".data ++ ce) ((content.drop st).take len) (some ys))
         ++ content.drop (st + len))) := by
  have hcs : '$' ∉ cs := by
    have h := (style_no_dollar ext).1
    rw [hstyle] at h; exact h
  cases hc : ys.contains '-' with
  | false =>
    obtain ⟨hne, hall, hlen⟩ := asciiYearShape_single ys hsh hc
    have hp := parseI32_of_digits ys hne hall hlen
    have hstep := headerStep_single cs ce author y content st len ys hf hall hne hlen hc
    rw [resultNoticeYears, hc] at hstart ⊢
    simp only [Bool.false_eq_true, if_false, hp, Option.getD_some] at hstart ⊢
    by_cases hy : (digitsVal ys : Int) = y
    · rw [if_pos hy] at hstart ⊢
      refine ⟨?_, Or.inl ?_⟩
      · intro yE hE
        exact absurd hE (by simp)
      · rw [hstep, if_pos hy]
    · rw [if_neg hy] at hstart ⊢
      refine ⟨?_, Or.inr ?_⟩
      · intro yE hE
        have hE2 : some y = some yE := hE
        injection hE2 with hE2
        subst hE2
        exact hstart
      · rw [hstep, if_neg hy, replaceFirst_of_find _ _ _ _ _ _ hf,
          expand_newCopyright cs ce author hcs]
  | true =>
    obtain ⟨a, b, hys, hnamem, hane, haall, halen, hbne, hball, hblen, hsp⟩ :=
      asciiYearShape_range ys hsh hc
    have hpa := parseI32_of_digits a hane haall halen
    have hpb := parseI32_of_digits b hbne hball hblen
    have hstep := headerStep_range cs ce author y content st len ys a b hf hc hsp
      hane haall halen hbne hball hblen
    rw [resultNoticeYears, hc] at hstart ⊢
    simp only [hsp, List.getElem?_cons_zero, List.getElem?_cons_succ,
      Option.getD_some, hpa, hpb, if_true] at hstart ⊢
    by_cases hy : (digitsVal b : Int) = y
    · rw [if_pos hy] at hstart ⊢
      refine ⟨?_, Or.inl ?_⟩
      · intro yE hE
        have hE2 : some ((digitsVal b : Nat) : Int) = some yE := hE
        injection hE2 with hE2
        subst hE2
        rw [hy]
        exact hstart
      · rw [hstep, if_pos hy]
    · rw [if_neg hy] at hstart ⊢
      refine ⟨?_, Or.inr ?_⟩
      · intro yE hE
        have hE2 : some y = some yE := hE
        injection hE2 with hE2
        subst hE2
        exact hstart
      · rw [hstep, if_neg hy, replaceFirst_of_find _ _ _ _ _ _ hf,
          expand_newCopyright cs ce author hcs]

/-- C8 (counterexample): content carrying the single-year notice `3000` with
current year 2025 is transformed into a notice with the year range
`3000-2025`, whose end year is smaller than its start year, so the
`CopyrightNotice` invariant fails in the transform's output. -/
theorem notice_invariant_cex :
    updateFileContent (some "py".data) "A".data "L".data 2025
        "# Copyright (c) 3000 A #".data =
      some "# Copyright (c) 3000-2025 A #\n\n#\n# License:\n# L\n#".data ∧
    (copyrightRe "#".data "#".data "A".data).findAux
        "# Copyright (c) 3000-2025 A #\n\n#\n# License:\n# L\n#".data 0
      = some (0, 29, some "3000-2025".data) ∧
    resultNoticeYears "3000-2025".data 2025 = (3000, some 2025) ∧
    ¬(3000 : Int) ≤ 2025 := by
  decide

/-- C8 (witness): the invariant at a concrete range bump `2020-2021` with
current year 2025. -/
theorem notice_invariant_amended_witness :
    (resultNoticeYears "2020-2021".data 2025).1 ≤ 2025 :=
  (notice_invariant_amended (some "py".data) "#".data "# ".data "#".data "A".data 2025
    "# Copyright (c) 2020-2021 A #".data 0 29 "2020-2021".data
    (by decide) (by decide) (by decide) (by decide)).1 2025 (by decide)

/-! ### Inversion of the matcher: the capture of the copyright pattern -/

theorem isPrefixOf_decomp :
    ∀ l s : List Char, l.isPrefixOf s = true → s = l ++ s.drop l.length := by
  intro l
  induction l with
  | nil => intro s _; simp
  | cons c l ih =>
    intro s h
    cases s with
    | nil => simp [List.isPrefixOf] at h
    | cons d rest =>
      simp only [List.isPrefixOf, Bool.and_eq_true, beq_iff_eq] at h
      obtain ⟨rfl, h2⟩ := h
      simp only [List.length_cons, List.drop_succ_cons, List.cons_append]
      exact congrArg (fun t => c :: t) (ih rest h2)

theorem mem_matches_lits (l s : List Char) (x : List Char × Option (List Char))
    (h : x ∈ (Re.lits l).matches s) :
    s = l ++ x.1 ∧ x.2 = none := by
  rw [Re.matches] at h
  split at h
  · rename_i hpre
    rw [List.mem_singleton] at h
    subst h
    exact ⟨isPrefixOf_decomp l s hpre, rfl⟩
  · simp at h

theorem mem_matches_cls (p : Char → Bool) (s : List Char)
    (x : List Char × Option (List Char)) (h : x ∈ (Re.cls p).matches s) :
    ∃ c, s = c :: x.1 ∧ p c = true ∧ x.2 = none := by
  cases s with
  | nil => rw [Re.matches] at h; simp at h
  | cons c rest =>
    rw [Re.matches] at h
    split at h
    · rw [List.mem_singleton] at h
      subst h
      exact ⟨c, rfl, by assumption, rfl⟩
    · simp at h

theorem mem_matches_cat (a b : Re) (s : List Char)
    (x : List Char × Option (List Char)) (h : x ∈ (Re.cat a b).matches s) :
    ∃ z ∈ a.matches s, ∃ w ∈ b.matches z.1, x = (w.1, capMerge w.2 z.2) := by
  rw [Re.matches] at h
  rw [List.mem_flatMap] at h
  obtain ⟨z, hz, hm⟩ := h
  rw [List.mem_map] at hm
  obtain ⟨w, hw, rfl⟩ := hm
  exact ⟨z, hz, w, hw, rfl⟩

theorem mem_matches_opt (a : Re) (s : List Char)
    (x : List Char × Option (List Char)) (h : x ∈ (Re.opt a).matches s) :
    x ∈ a.matches s ∨ x = (s, none) := by
  rw [Re.matches] at h
  rcases List.mem_append.mp h with h | h
  · exact Or.inl h
  · rw [List.mem_singleton] at h
    exact Or.inr h

theorem mem_matches_grp (a : Re) (s : List Char)
    (x : List Char × Option (List Char)) (h : x ∈ (Re.grp a).matches s) :
    ∃ z ∈ a.matches s, x = (z.1, some (s.take (s.length - z.1.length))) := by
  rw [Re.matches] at h
  rw [List.mem_map] at h
  obtain ⟨z, hz, rfl⟩ := h
  exact ⟨z, hz, rfl⟩

theorem starG_cap_none (p : Char → Bool) :
    ∀ s : List Char, ∀ x ∈ starGMatches p s, x.2 = none := by
  intro s
  induction s with
  | nil =>
    intro x hx
    rw [starGMatches, List.mem_singleton] at hx
    subst hx; rfl
  | cons c rest ih =>
    intro x hx
    rw [starGMatches] at hx
    split at hx
    · rcases List.mem_append.mp hx with h | h
      · exact ih x h
      · rw [List.mem_singleton] at h; subst h; rfl
    · rw [List.mem_singleton] at hx; subst hx; rfl

theorem starL_cap_none (p : Char → Bool) :
    ∀ s : List Char, ∀ x ∈ starLMatches p s, x.2 = none := by
  intro s
  induction s with
  | nil =>
    intro x hx
    rw [starLMatches, List.mem_singleton] at hx
    subst hx; rfl
  | cons c rest ih =>
    intro x hx
    rw [starLMatches] at hx
    rcases List.mem_cons.mp hx with h | h
    · subst h; rfl
    · split at h
      · exact ih x h
      · simp at h

theorem digit4_consumes (s : List Char) (x : List Char × Option (List Char))
    (h : x ∈ digit4Re.matches s) :
    ∃ c1 c2 c3 c4, s = c1 :: c2 :: c3 :: c4 :: x.1 ∧
      isNd c1 = true ∧ isNd c2 = true ∧ isNd c3 = true ∧ isNd c4 = true ∧
      x.2 = none := by
  rw [digit4Re] at h
  obtain ⟨z1, hz1, w1, hw1, rfl⟩ := mem_matches_cat _ _ _ _ h
  obtain ⟨c1, hs1, hp1, hc1⟩ := mem_matches_cls _ _ _ hz1
  obtain ⟨z2, hz2, w2, hw2, rfl⟩ := mem_matches_cat _ _ _ _ hw1
  obtain ⟨c2, hs2, hp2, hc2⟩ := mem_matches_cls _ _ _ hz2
  obtain ⟨z3, hz3, w3, hw3, rfl⟩ := mem_matches_cat _ _ _ _ hw2
  obtain ⟨c3, hs3, hp3, hc3⟩ := mem_matches_cls _ _ _ hz3
  obtain ⟨c4, hs4, hp4, hc4⟩ := mem_matches_cls _ _ _ hw3
  refine ⟨c1, c2, c3, c4, ?_, hp1, hp2, hp3, hp4, ?_⟩
  · rw [hs1, hs2, hs3, hs4]
  · simp only [hc1, hc2, hc3, hc4, capMerge]

theorem yearGrp_capture (s : List Char) (x : List Char × Option (List Char))
    (h : x ∈ yearGrpRe.matches s) :
    ∃ ys, x.2 = some ys ∧ ndYearShape ys = true ∧ s = ys ++ x.1 := by
  rw [yearGrpRe] at h
  obtain ⟨z, hz, rfl⟩ := mem_matches_grp _ _ _ h
  obtain ⟨z1, hz1, w1, hw1, rfl⟩ := mem_matches_cat _ _ _ _ hz
  obtain ⟨c1, c2, c3, c4, hs4, h1, h2, h3, h4, hc⟩ := digit4_consumes _ _ hz1
  rcases mem_matches_opt _ _ _ hw1 with hop | hop
  · obtain ⟨z2, hz2, w2, hw2, rfl⟩ := mem_matches_cat _ _ _ _ hop
    obtain ⟨hdash, hz2c⟩ := mem_matches_lits _ _ _ hz2
    obtain ⟨d1, d2, d3, d4, hs8, g1, g2, g3, g4, hw2c⟩ := digit4_consumes _ _ hw2
    have hcons : s = [c1, c2, c3, c4, '-', d1, d2, d3, d4] ++ w2.1 := by
      rw [hs4, hdash, hs8]; rfl
    have hlen : s.length - w2.1.length =
        ([c1, c2, c3, c4, '-', d1, d2, d3, d4] : List Char).length := by
      rw [hcons, List.length_append]
      omega
    refine ⟨[c1, c2, c3, c4, '-', d1, d2, d3, d4], ?_, ?_, ?_⟩
    · simp only [Prod.snd]
      rw [hlen, hcons, List.take_left]
    · rw [ndYearShape]
      simp [h1, h2, h3, h4, g1, g2, g3, g4]
    · exact hcons
  · have hw11 : w1.1 = z1.1 := by rw [hop]
    have hcons : s = [c1, c2, c3, c4] ++ w1.1 := by
      rw [hs4, hw11]; rfl
    have hlen : s.length - w1.1.length = ([c1, c2, c3, c4] : List Char).length := by
      rw [hcons, List.length_append]
      omega
    refine ⟨[c1, c2, c3, c4], ?_, ?_, ?_⟩
    · simp only [Prod.snd]
      rw [hlen, hcons, List.take_left]
    · rw [ndYearShape]
      simp [h1, h2, h3, h4]
    · exact hcons

theorem authorGrp_cap_none (author : List Char) (s : List Char)
    (x : List Char × Option (List Char))
    (h : x ∈ (Re.cat (.lits (' ' :: author))
        (.cat (.starG wsClass) (.starL (fun c => c ≠ '\n')))).matches s) :
    x.2 = none := by
  obtain ⟨z1, hz1, w1, hw1, rfl⟩ := mem_matches_cat _ _ _ _ h
  obtain ⟨-, hz1c⟩ := mem_matches_lits _ _ _ hz1
  obtain ⟨z2, hz2, w2, hw2, rfl⟩ := mem_matches_cat _ _ _ _ hw1
  have hz2c : z2.2 = none := starG_cap_none wsClass _ _ (by rwa [Re.matches] at hz2)
  have hw2c : w2.2 = none := starL_cap_none _ _ _ (by rwa [Re.matches] at hw2)
  simp only [hz1c, hz2c, hw2c, capMerge]

theorem copyright_capture (cs ce author : List Char) (s : List Char)
    (x : List Char × Option (List Char))
    (h : x ∈ (copyrightRe cs ce author).matches s) :
    ∃ ys, x.2 = some ys ∧ ndYearShape ys = true := by
  rw [copyrightRe] at h
  obtain ⟨z1, hz1, w1, hw1, rfl⟩ := mem_matches_cat _ _ _ _ h
  obtain ⟨-, hz1c⟩ := mem_matches_lits _ _ _ hz1
  obtain ⟨z2, hz2, w2, hw2, rfl⟩ := mem_matches_cat _ _ _ _ hw1
  have hz2c : z2.2 = none := starG_cap_none wsClass _ _ (by rwa [Re.matches] at hz2)
  obtain ⟨z3, hz3, w3, hw3, rfl⟩ := mem_matches_cat _ _ _ _ hw2
  obtain ⟨-, hz3c⟩ := mem_matches_lits _ _ _ hz3
  obtain ⟨z4, hz4, w4, hw4, rfl⟩ := mem_matches_cat _ _ _ _ hw3
  obtain ⟨ys, hz4c, hshape, -⟩ := yearGrp_capture _ _ hz4
  obtain ⟨z5, hz5, w5, hw5, rfl⟩ := mem_matches_cat _ _ _ _ hw4
  have hz5c : z5.2 = none := authorGrp_cap_none author _ _ hz5
  obtain ⟨-, hw5c⟩ := mem_matches_lits _ _ _ hw5
  refine ⟨ys, ?_, hshape⟩
  simp only [hw5c, hz5c, hz4c, hz3c, hz2c, hz1c, capMerge]

theorem findAux_mem (re : Re) :
    ∀ s : List Char, ∀ pos st len : Nat, ∀ cap : Option (List Char),
      re.findAux s pos = some (st, len, cap) →
      ∃ s0 x, x ∈ re.matches s0 ∧ cap = x.2 := by
  intro s
  induction s with
  | nil =>
    intro pos st len cap h
    rw [Re.findAux] at h
    rcases hh : (re.matches []).head? with _ | x
    · rw [hh] at h
      exact Option.noConfusion h
    · rw [hh] at h
      obtain ⟨t, ht⟩ := List.head?_eq_some_iff.mp hh
      simp only [Option.some.injEq, Prod.mk.injEq] at h
      exact ⟨[], x, by rw [ht]; exact List.mem_cons_self _ _, h.2.2.symm⟩
  | cons c rest ih =>
    intro pos st len cap h
    rw [Re.findAux] at h
    rcases hh : (re.matches (c :: rest)).head? with _ | x
    · rw [hh] at h
      exact ih (pos + 1) st len cap h
    · rw [hh] at h
      obtain ⟨t, ht⟩ := List.head?_eq_some_iff.mp hh
      simp only [Option.some.injEq, Prod.mk.injEq] at h
      exact ⟨c :: rest, x, by rw [ht]; exact List.mem_cons_self _ _, h.2.2.symm⟩

theorem isNd_ascii (c : Char) (h : isNd c = true) (ha : c.toNat ≤ 127) :
    c.isDigit = true := by
  rw [isNd] at h
  simp only [Bool.or_eq_true, Bool.and_eq_true, decide_eq_true_eq] at h
  rcases h with ((h | h) | h) | h
  · exact h
  · omega
  · omega
  · omega

theorem ndShape_ascii (ys : List Char) (h : ndYearShape ys = true)
    (ha : ys.all (fun c => c.toNat ≤ 127) = true) : asciiYearShape ys = true := by
  rw [List.all_eq_true] at ha
  have ha' : ∀ x ∈ ys, x.toNat ≤ 127 := fun x hx => of_decide_eq_true (ha x hx)
  match ys, h, ha' with
  | [a, b, c, d], h, ha' =>
    rw [ndYearShape] at h
    rw [asciiYearShape]
    simp only [Bool.and_eq_true] at h
    obtain ⟨⟨⟨h1, h2⟩, h3⟩, h4⟩ := h
    simp only [List.all_cons, List.all_nil, Bool.and_eq_true]
    refine ⟨isNd_ascii a h1 (ha' a (by simp)), isNd_ascii b h2 (ha' b (by simp)),
      isNd_ascii c h3 (ha' c (by simp)), isNd_ascii d h4 (ha' d (by simp)), trivial⟩
  | [a, b, c, d, hd, e, f, g, i], h, ha' =>
    rw [ndYearShape] at h
    rw [asciiYearShape]
    simp only [Bool.and_eq_true] at h
    obtain ⟨⟨⟨⟨⟨⟨⟨⟨h1, h2⟩, h3⟩, h4⟩, h5⟩, h6⟩, h7⟩, h8⟩, h9⟩ := h
    simp only [List.all_cons, List.all_nil, Bool.and_eq_true]
    exact ⟨⟨⟨isNd_ascii a h1 (ha' a (by simp)), isNd_ascii b h2 (ha' b (by simp)),
      isNd_ascii c h3 (ha' c (by simp)), isNd_ascii d h4 (ha' d (by simp)), trivial⟩, h5⟩,
      isNd_ascii e h6 (ha' e (by simp)), isNd_ascii f h7 (ha' f (by simp)),
      isNd_ascii g h8 (ha' g (by simp)), isNd_ascii i h9 (ha' i (by simp)), trivial⟩

/-! ### Claim C10: safety of the pattern construction and year parsing -/

/-- C10 (amended): the patterns are well-defined matchers by construction;
whenever the header pattern matches, capture group 1 exists and is a
four-digit year or a dash-separated pair of four-digit years in the sense
of the pattern's `\d` (Unicode decimal digits); when those digits are
ASCII, every `str::parse` and `caps.get(1)` unwrap succeeds and the header
engine produces an output. A capture with non-ASCII digits makes the parse
fail (see the counterexample `year_parse_panics_cex`). -/
theorem year_capture_safe
    (cs ce author : List Char) (y : Int) (content : List Char) :
    ((copyrightRe cs ce author).findAux content 0 = none →
      ∃ out, headerStep cs ce author y content = some out) ∧
    (∀ st len cap, (copyrightRe cs ce author).findAux content 0 = some (st, len, cap) →
      ∃ ys, cap = some ys ∧ ndYearShape ys = true ∧
        (ys.all (fun c => c.toNat ≤ 127) = true →
          ∃ out, headerStep cs ce author y content = some out)) := by
  constructor
  · intro hf
    exact ⟨_, by rw [headerStep, hf]⟩
  · intro st len cap hf
    obtain ⟨s0, x, hx, hcap⟩ := findAux_mem _ _ _ _ _ _ hf
    obtain ⟨ys, hx2, hshape⟩ := copyright_capture cs ce author s0 x hx
    rw [hx2] at hcap
    refine ⟨ys, hcap, hshape, ?_⟩
    intro hascii
    have hsh : asciiYearShape ys = true := ndShape_ascii ys hshape hascii
    rw [hcap] at hf
    cases hc : ys.contains '-' with
    | false =>
      obtain ⟨hne, hall, hlen⟩ := asciiYearShape_single ys hsh hc
      exact ⟨_, headerStep_single cs ce author y content st len ys hf hall hne hlen hc⟩
    | true =>
      obtain ⟨a, b, hys, hnamem, hane, haall, halen, hbne, hball, hblen, hsp⟩ :=
        asciiYearShape_range ys hsh hc
      exact ⟨_, headerStep_range cs ce author y content st len ys a b hf hc hsp
        hane haall halen hbne hball hblen⟩

/-- C10 (counterexample): the header pattern's `\d` matches Unicode decimal
digits, the captured year string then fails `str::parse::<i32>`, and the
whole transform panics (models as `none`): the parse unwrap of
`update_file` can panic. -/
theorem year_parse_panics_cex :
    (copyrightRe "#".data "#".data "A".data).findAux
        "# Copyright (c) ٢٠٢١ A #".data 0 = some (0, 24, some "٢٠٢١".data) ∧
    parseI32? "٢٠٢١".data = none ∧
    updateFileContent (some "py".data) "A".data "L".data 2025
      "# Copyright (c) ٢٠٢١ A #".data = none := by
  decide

/-- C10 (witness): on a concrete ASCII notice the capture exists, has the
year shape, and the engine succeeds. -/
theorem year_capture_safe_witness :
    ∃ ys, (some "2021".data : Option (List Char)) = some ys ∧ ndYearShape ys = true ∧
      (ys.all (fun c => c.toNat ≤ 127) = true →
        ∃ out, headerStep "/*".data " */".data "A".data 2025
          "/* Copyright (c) 2021 A */".data = some out) :=
  (year_capture_safe "/*".data " */".data "A".data 2025
    "/* Copyright (c) 2021 A */".data).2 0 26 (some "2021".data) (by decide)
